import Mathlib

/-!
Shallow embedding of the NLA strip-merge operator
(`CO_OT_CaN_MergeStrips.execute` in `src/__init__.py`, BlenderNLATools).

The operator merges several selected NLA strips on one object into a single
baked strip.  The embedding models the host (Blender) object graph as plain
data: tracks holding strips, strips optionally referencing an action made of
f-curves.  Host calls whose results the code consumes (channel evaluation,
`scene.frame_set`, `fcurves.new`, `keyframe_points.insert`, the extent the
host gives a freshly created strip) are abstracted as an `Env` of pure
functions; a `false`/`none` answer models the corresponding Python call
raising (for the uncaught `frame_set`) or failing in a caught `try/except`
(for channel reads, f-curve creation and keyframe insertion).

Python object identity (used by `strip in selected_strips`) is modelled by a
numeric `id` field on strips; the captured `selected_strips` list is
represented by the list of its ids.
-/

namespace NLAMerge

/-- Blend modes of NLA strips (`strip.blend_type`). -/
inductive BlendType
  | REPLACE
  | COMBINE
  | ADD
  | SUBTRACT
  | MULTIPLY
deriving DecidableEq, Repr

/-- Keyframe interpolation modes (`keyframe.interpolation`). -/
inductive Interp
  | CONSTANT
  | LINEAR
  | BEZIER
deriving DecidableEq, Repr

/-- F-curve extrapolation modes (`fcurve.extrapolation`). -/
inductive Extrap
  | CONSTANT
  | LINEAR
deriving DecidableEq, Repr

/-- One keyframe point of an f-curve. -/
structure Keyframe where
  frame : Int
  value : ℚ
  interpolation : Interp
deriving DecidableEq, Repr

/-- One f-curve: an animated scalar channel `(data_path, array_index)`. -/
structure FCurve where
  data_path : String
  array_index : Nat
  extrapolation : Extrap
  keyframe_points : List Keyframe
deriving DecidableEq, Repr

/-- An action: a named collection of f-curves (the AnimationSource). -/
structure Action where
  name : String
  fcurves : List FCurve
deriving DecidableEq, Repr

/-- An NLA strip.  `id` models Python object identity; `select` is the
selection flag (`context.selected_nla_strips` lists the selected strips). -/
structure Strip where
  id : Nat
  name : String
  frame_start : ℚ
  frame_end : ℚ
  blend_type : BlendType
  select : Bool
  mute : Bool
  action : Option Action
deriving DecidableEq, Repr

/-- An NLA track: an ordered container of strips with a `mute` flag. -/
structure Track where
  name : String
  mute : Bool
  strips : List Strip
deriving DecidableEq, Repr

/-- The mutable host state the operator touches: the scene's current frame
and the object's NLA tracks (in precedence order). -/
structure HostState where
  frame_current : Int
  tracks : List Track
deriving DecidableEq, Repr

/-- Host collaborator functions consumed by the operator.
`eval f p i` is the value `obj.path_resolve(p)[i]` yields after
`scene.frame_set f` (with the isolation mutes in force), `none` when
resolution fails; `frame_set_ok f = false` means `scene.frame_set f` raises;
`fcurve_new_ok` / `insert_ok` model the `try/except`-guarded host calls
`fcurves.new` and `keyframe_points.insert`; `strip_extent` is the frame end
the host computes for a strip freshly created from an action. -/
structure Env where
  eval : Int → String → Nat → Option ℚ
  frame_set_ok : Int → Bool
  fcurve_new_ok : String → Nat → Bool
  insert_ok : Int → String → Nat → Bool
  strip_extent : Int → Action → ℚ

/-- Python `math.floor` on a rational, via flooring integer division. -/
def mfloor (q : ℚ) : Int := Int.fdiv q.num q.den

/-- Python `math.ceil` on a rational. -/
def mceil (q : ℚ) : Int := -mfloor (-q)

/-- Eligibility filter (lines 42-49): the strip has an action with at least
one f-curve. -/
def eligible (s : Strip) : Bool :=
  match s.action with
  | none => false
  | some a => decide (a.fcurves ≠ [])

/-- All strips of the object, in track/strip scan order. -/
def stripsOf (tracks : List Track) : List Strip := tracks.flatMap Track.strips

/-- The model of `context.selected_nla_strips` (`sel_strips_all`). -/
def selStripsAll (tracks : List Track) : List Strip :=
  (stripsOf tracks).filter Strip.select

/-- The filtered `selected_strips` list (selected and eligible). -/
def selectedStrips (tracks : List Track) : List Strip :=
  (selStripsAll tracks).filter eligible

/-- Membership of a strip in the captured `selected_strips` list, by id. -/
def isSel (sel : List Nat) (s : Strip) : Bool := decide (s.id ∈ sel)

/-- Does the track hold a strip of the captured selection?  At isolation
time this is exactly `track in disabled_tracks` (lines 62-67 only ever add
tracks holding a selected strip). -/
def holdsSel (sel : List Nat) (t : Track) : Bool := t.strips.any (isSel sel)

/-- Running minimum against the `math.inf` sentinel (`none` is infinity). -/
def optMinI (o : Option Int) (v : Int) : Int :=
  match o with
  | none => v
  | some w => min w v

/-- Running maximum against the `-math.inf` sentinel. -/
def optMaxI (o : Option Int) (v : Int) : Int :=
  match o with
  | none => v
  | some w => max w v

/-- Running minimum for `track_min_idx` (`none` is infinity). -/
def optMinN (o : Option Nat) (v : Nat) : Nat :=
  match o with
  | none => v
  | some w => min w v

/-- State of the range/mode resolver scan (lines 55-74): current mode, the
running `strip_start` / `strip_end` (`none` encodes the infinite sentinel)
and the running `track_min_idx`. -/
structure RState where
  mode : BlendType
  start : Option Int
  stop : Option Int
  minIdx : Option Nat
deriving DecidableEq, Repr

/-- Initial resolver state (lines 56-60). -/
def rInit : RState := ⟨.COMBINE, none, none, none⟩

/-- Effect of one strip on the resolver state (lines 64-72): selected strips
update the running min/max and the mode (`REPLACE` wins, otherwise last
strip scanned wins). -/
def stepStrip (sel : List Nat) (r : RState) (s : Strip) : RState :=
  if isSel sel s then
    { mode := if s.blend_type = .REPLACE ∨ r.mode ≠ .REPLACE then s.blend_type else r.mode
      start := some (optMinI r.start (mfloor s.frame_start))
      stop := some (optMaxI r.stop (mceil s.frame_end))
      minIdx := r.minIdx }
  else r

/-- Effect of one track on the resolver state (lines 62-74): scan the strips,
then fold the track index into `track_min_idx` when a selected strip was
found on the track. -/
def stepTrack (sel : List Nat) (i : Nat) (r : RState) (t : Track) : RState :=
  let r2 := t.strips.foldl (stepStrip sel) r
  if holdsSel sel t then { r2 with minIdx := some (optMinN r2.minIdx i) } else r2

/-- Resolver scan over the tracks with an explicit index counter. -/
def resolveGo (sel : List Nat) : Nat → RState → List Track → RState
  | _, r, [] => r
  | i, r, t :: ts => resolveGo sel (i + 1) (stepTrack sel i r t) ts

/-- The range/mode resolver (lines 55-74). -/
def resolve (sel : List Nat) (tracks : List Track) : RState :=
  resolveGo sel 0 rInit tracks

/-- Map with an explicit index counter (used where the source enumerates). -/
def mapWithIdx (f : Nat → α → β) : Nat → List α → List β
  | _, [] => []
  | i, a :: as => f i a :: mapWithIdx f (i + 1) as

/-- Comparison of a track index against the possibly-infinite
`track_min_idx` (`i < math.inf` is true). -/
def ltOptN (i : Nat) (o : Option Nat) : Bool :=
  match o with
  | none => true
  | some k => decide (i < k)

/-- Isolation step for one track (lines 84-90): mute it when it is not
already muted, holds no selected strip, and is not exempted by the
REPLACE-below-minimum-index rule. -/
def isoTrack (sel : List Nat) (mode : BlendType) (minIdx : Option Nat)
    (i : Nat) (t : Track) : Track :=
  if t.mute = false ∧ holdsSel sel t = false ∧
      ¬(mode = .REPLACE ∧ ltOptN i minIdx = true) then
    { t with mute := true }
  else t

/-- The visibility isolator (lines 84-90). -/
def isolate (sel : List Nat) (mode : BlendType) (minIdx : Option Nat)
    (tracks : List Track) : List Track :=
  mapWithIdx (isoTrack sel mode minIdx) 0 tracks

/-- Channel keys `(data_path, array_index)` contributed by one strip
(lines 103-108; a strip without an action contributes nothing). -/
def stripChannels (s : Strip) : List (String × Nat) :=
  match s.action with
  | none => []
  | some a => a.fcurves.map fun fc => (fc.data_path, fc.array_index)

/-- Strict comparison of characters by code point (Python compares
strings by code point). -/
def charLt (a b : Char) : Bool := decide (a.toNat < b.toNat)

/-- Lexicographic strict comparison of character lists, exactly Python's
string `<`. -/
def charListLt : List Char → List Char → Bool
  | _, [] => false
  | [], _ :: _ => true
  | a :: as, b :: bs => if a = b then charListLt as bs else charLt a b

/-- Python's `<` on strings. -/
def strLt (a b : String) : Bool := charListLt a.data b.data

/-- Sort key order of line 109: by `data_path`, then by `array_index`. -/
def pairLe (a b : String × Nat) : Prop :=
  strLt a.1 b.1 = true ∨ (a.1 = b.1 ∧ a.2 ≤ b.2)

instance : DecidableRel pairLe := fun a b =>
  inferInstanceAs (Decidable (strLt a.1 b.1 = true ∨ (a.1 = b.1 ∧ a.2 ≤ b.2)))

/-- The channel catalog (lines 101-109): the set of `(data_path,
array_index)` pairs of the selected strips (a Python `set`, modelled as
duplicate erasure), sorted by path then index. -/
def catalog (l : List Strip) : List (String × Nat) :=
  List.insertionSort pairLe ((l.flatMap stripChannels).dedup)

/-- Python `range(a, b)` over integers. -/
def intRange (a b : Int) : List Int :=
  (List.range (b - a).toNat).map fun k => a + k

/-- Result of the sampling loop: the rows collected (`fcurve_values`), the
scene frame after the loop, and whether the loop completed (`ok = false`
means `scene.frame_set` raised and the error propagates). -/
structure SampleOut where
  rows : List (Int × List (Option ℚ))
  frame : Int
  ok : Bool
deriving DecidableEq, Repr

/-- The frame sampler (lines 120-143): for each frame, set the scene frame
and read every cataloged channel; a failed read is recorded as `none`.  When
`frame_set` raises, the loop aborts with the rows discarded. -/
def sampleLoop (env : Env) (aff : List (String × Nat)) :
    List Int → Int → SampleOut
  | [], f => ⟨[], f, true⟩
  | fr :: rest, f =>
    if env.frame_set_ok fr then
      let row : Int × List (Option ℚ) :=
        (fr, aff.map fun pi => env.eval fr pi.1 pi.2)
      let out := sampleLoop env aff rest fr
      ⟨row :: out.rows, out.frame, out.ok⟩
    else ⟨[], f, false⟩

/-- F-curve creation pass of the synthesizer (lines 150-161): one f-curve
per catalog entry, with linear extrapolation, skipping entries the host
rejects.  The `new_fcurves` dict is recovered from this list by key lookup
(catalog keys are unique). -/
def mkFcurves (env : Env) (aff : List (String × Nat)) : List FCurve :=
  aff.filterMap fun pi =>
    if env.fcurve_new_ok pi.1 pi.2 then
      some { data_path := pi.1, array_index := pi.2,
             extrapolation := .LINEAR, keyframe_points := [] }
    else none

/-- One keyframe insertion (lines 174-177): append a linear keyframe at the
absolute frame to the f-curve with the given key, if that f-curve was
created and the host accepts the insertion.  Appending models
`keyframe_points.insert` because frames are visited in increasing order. -/
def insertKey (env : Env) (fr : Int) (p : String) (i : Nat) (v : ℚ)
    (fcs : List FCurve) : List FCurve :=
  fcs.map fun fc =>
    if fc.data_path = p ∧ fc.array_index = i ∧ env.insert_ok fr p i = true then
      { fc with keyframe_points := fc.keyframe_points ++ [⟨fr, v, .LINEAR⟩] }
    else fc

/-- Keyframe insertion for one sampled row (lines 164-180): walk the catalog
entries with their sampled values, skipping absent (`None`) values. -/
def processRow (env : Env) (aff : List (String × Nat))
    (row : Int × List (Option ℚ)) (fcs : List FCurve) : List FCurve :=
  (aff.zip row.2).foldl
    (fun acc e =>
      match e.2 with
      | none => acc
      | some v => insertKey env row.1 e.1.1 e.1.2 v acc)
    fcs

/-- The clip synthesizer's f-curve content (lines 149-180): create the
f-curves, then insert the sampled keyframes row by row. -/
def synthesize (env : Env) (aff : List (String × Nat))
    (rows : List (Int × List (Option ℚ))) : List FCurve :=
  rows.foldl (fun fcs row => processRow env aff row fcs) (mkFcurves env aff)

/-- Muting of an originally selected strip (lines 193-194 and 218-219). -/
def muteSelStrip (sel : List Nat) (s : Strip) : Strip :=
  if isSel sel s then { s with mute := true } else s

/-- First restore pass (lines 184-195): walk the current tracks, set each
track's mute back to its `original_mute` snapshot, and mute the originally
selected strips. -/
def restoreAndMuteSel (sel : List Nat) (orig cur : List Track) : List Track :=
  (orig.zip cur).map fun oc =>
    { oc.2 with
      mute := oc.1.mute
      strips := oc.2.strips.map (muteSelStrip sel) }

/-- Restore of the `original_mute` snapshot alone (lines 115-116 and
211-213): every track present in the snapshot gets its saved mute back;
tracks beyond the snapshot (the newly created one) are untouched. -/
def restoreOrigMute (orig cur : List Track) : List Track :=
  mapWithIdx
    (fun i t =>
      match orig[i]? with
      | some o => { t with mute := o.mute }
      | none => t)
    0 cur

/-- Final pass muting every originally selected strip (lines 216-219). -/
def muteSelAll (sel : List Nat) (tracks : List Track) : List Track :=
  tracks.map fun t => { t with strips := t.strips.map (muteSelStrip sel) }

/-- Largest strip id present in the object. -/
def maxStripId (tracks : List Track) : Nat :=
  ((stripsOf tracks).map Strip.id).foldl max 0

/-- Identity of the strip created by `strips.new`: a fresh host object,
distinct from every existing strip. -/
def freshStripId (tracks : List Track) : Nat := maxStripId tracks + 1

/-- Outcome of one operator run: `FINISHED` / `CANCELLED` are the operator's
return values; `RAISED` models an uncaught Python exception propagating to
the caller. -/
inductive Outcome
  | FINISHED
  | CANCELLED
  | RAISED
deriving DecidableEq, Repr

/-- The whole operator (`execute`, lines 25-226), as a function from the
host environment and initial host state to an outcome and the final host
state.  The object is assumed to exist with animation data (the guards of
lines 32-40 for a missing object are outside the modelled object graph);
progress-bar calls carry no modelled state. -/
def execute (env : Env) (st : HostState) : Outcome × HostState :=
  let begin_frame := st.frame_current
  let sel_strips_all := selStripsAll st.tracks
  if sel_strips_all = [] then (.CANCELLED, st)
  else
    let selected_strips := sel_strips_all.filter eligible
    if selected_strips.length < 2 then (.CANCELLED, st)
    else
      let sel := selected_strips.map Strip.id
      let r := resolve sel st.tracks
      match r.start, r.stop with
      | some strip_start, some strip_stop =>
        let tracks1 := isolate sel r.mode r.minIdx st.tracks
        let affected := catalog selected_strips
        if affected = [] then
          (.CANCELLED, { st with tracks := restoreOrigMute st.tracks tracks1 })
        else
          let out := sampleLoop env affected (intRange strip_start strip_stop)
            st.frame_current
          if out.ok = false then
            (.RAISED, { frame_current := out.frame, tracks := tracks1 })
          else
            let merged_name :=
              (match selected_strips with
               | [] => ""
               | s :: _ => s.name) ++ "_merged"
            let merged_action : Action :=
              { name := merged_name, fcurves := synthesize env affected out.rows }
            let tracks2 := restoreAndMuteSel sel st.tracks tracks1
            let new_strip : Strip :=
              { id := freshStripId st.tracks
                name := merged_name
                frame_start := (strip_start : ℚ)
                frame_end := env.strip_extent strip_start merged_action
                blend_type := r.mode
                select := false
                mute := false
                action := some merged_action }
            let tracks3 := tracks2 ++
              [{ name := merged_action.name, mute := false, strips := [new_strip] }]
            let tracks4 := restoreOrigMute st.tracks tracks3
            let tracks5 := muteSelAll sel tracks4
            if env.frame_set_ok begin_frame then
              (.FINISHED, { frame_current := begin_frame, tracks := tracks5 })
            else
              (.RAISED, { frame_current := out.frame, tracks := tracks5 })
      | _, _ => (.CANCELLED, st)

/-! Helper definitions used by the proofs. -/

/-- Accumulated running minimum, with `none` as the infinite sentinel. -/
def minAcc (o : Option Int) (xs : List Int) : Option Int :=
  xs.foldl (fun a v => some (optMinI a v)) o

/-- Accumulated running maximum, with `none` as the sentinel. -/
def maxAcc (o : Option Int) (xs : List Int) : Option Int :=
  xs.foldl (fun a v => some (optMaxI a v)) o

/-- Mode update of lines 71-72 in isolation. -/
def modeStep (m : BlendType) (s : Strip) : BlendType :=
  if s.blend_type = .REPLACE ∨ m ≠ .REPLACE then s.blend_type else m

/-- Mode fold over a list of (already filtered) selected strips. -/
def modeFold (m : BlendType) (l : List Strip) : BlendType :=
  l.foldl modeStep m

/-- Floors of the selected strips of a scan segment. -/
def floorsOf (sel : List Nat) (l : List Strip) : List Int :=
  (l.filter (isSel sel)).map fun s => mfloor s.frame_start

/-- Ceilings of the selected strips of a scan segment. -/
def ceilsOf (sel : List Nat) (l : List Strip) : List Int :=
  (l.filter (isSel sel)).map fun s => mceil s.frame_end

/-- Copy of an f-curve with one linear keyframe appended. -/
def pushKey (fc : FCurve) (fr : Int) (v : ℚ) : FCurve :=
  { fc with keyframe_points := fc.keyframe_points ++ [⟨fr, v, .LINEAR⟩] }

/-- Effect of one sampled row on the f-curve of catalog entry `q`: append a
keyframe when the read value is present, otherwise leave it alone. -/
def updRow (e : (String × Nat) → Option ℚ) (fr : Int)
    (G : (String × Nat) → FCurve) (q : String × Nat) : FCurve :=
  match e q with
  | none => G q
  | some v => pushKey (G q) fr v

/-- Fresh f-curve for a catalog entry, as the creation pass makes it. -/
def freshFC (pi : String × Nat) : FCurve :=
  { data_path := pi.1, array_index := pi.2, extrapolation := Extrap.LINEAR,
    keyframe_points := [] }

/-- Keyframe produced for catalog entry `pi` by one sampled row, if any. -/
def rowKey (env : Env) (pi : String × Nat) (row : Int × List (Option ℚ)) :
    Option Keyframe :=
  (env.eval row.1 pi.1 pi.2).map fun v => ⟨row.1, v, Interp.LINEAR⟩

/-! Concrete fixtures used by witnesses and counterexamples. -/

/-- Action with one f-curve on channel `("location", 0)`. -/
def actLoc : Action :=
  { name := "ActA", fcurves := [⟨"location", 0, .CONSTANT, []⟩] }

/-- Action with f-curves on `("location", 0)` and `("location", 1)`. -/
def actLoc2 : Action :=
  { name := "ActB",
    fcurves := [⟨"location", 0, .CONSTANT, []⟩, ⟨"location", 1, .CONSTANT, []⟩] }

/-- Selected eligible strip on `[0, 2)`, mode COMBINE. -/
def stripA : Strip :=
  { id := 1, name := "A", frame_start := 0, frame_end := 2,
    blend_type := .COMBINE, select := true, mute := false, action := some actLoc }

/-- Selected eligible strip on `[1, 3)`, mode COMBINE. -/
def stripB : Strip :=
  { id := 2, name := "B", frame_start := 1, frame_end := 3,
    blend_type := .COMBINE, select := true, mute := false, action := some actLoc2 }

/-- Unselected strip on a competing track. -/
def stripC : Strip :=
  { id := 3, name := "C", frame_start := 0, frame_end := 5,
    blend_type := .COMBINE, select := false, mute := false, action := some actLoc }

/-- Host state with two selected eligible strips on tracks 0 and 1 and a
competing unselected track 2. -/
def stOK : HostState :=
  { frame_current := 7
    tracks :=
      [ { name := "T0", mute := false, strips := [stripA] },
        { name := "T1", mute := false, strips := [stripB] },
        { name := "T2", mute := false, strips := [stripC] } ] }

/-- Environment in which every host call succeeds; channel `(p, i)` reads
`frame + i` at each frame. -/
def envTotal : Env :=
  { eval := fun f _ i => some ((f + (i : Int) : Int) : ℚ)
    frame_set_ok := fun _ => true
    fcurve_new_ok := fun _ _ => true
    insert_ok := fun _ _ _ => true
    strip_extent := fun s _ => (s : ℚ) }

/-- Environment in which `scene.frame_set` always raises. -/
def envNoFrameSet : Env := { envTotal with frame_set_ok := fun _ => false }

/-- Selected strip with no action at all. -/
def stripN1 : Strip :=
  { id := 1, name := "N1", frame_start := 0, frame_end := 2,
    blend_type := .COMBINE, select := true, mute := false, action := none }

/-- Second selected strip with no action. -/
def stripN2 : Strip :=
  { id := 2, name := "N2", frame_start := 1, frame_end := 3,
    blend_type := .COMBINE, select := true, mute := false, action := none }

/-- Host state whose two selected strips both lack an animation source, so
the channel catalog of the selection is empty. -/
def stNoSources : HostState :=
  { frame_current := 4
    tracks :=
      [ { name := "T0", mute := false, strips := [stripN1] },
        { name := "T1", mute := false, strips := [stripN2] } ] }

/-- Host state with a single eligible selected strip (validation failure:
fewer than two eligible strips remain after filtering). -/
def stOneEligible : HostState :=
  { frame_current := 4
    tracks :=
      [ { name := "T0", mute := false, strips := [stripA] },
        { name := "T1", mute := false, strips := [stripN2] } ] }

/-- Selected REPLACE strip used on track index 2. -/
def stripR : Strip :=
  { id := 10, name := "R", frame_start := 0, frame_end := 2,
    blend_type := .REPLACE, select := true, mute := false, action := some actLoc }

/-- Selected COMBINE strip used on track index 3. -/
def stripR2 : Strip :=
  { id := 11, name := "R2", frame_start := 1, frame_end := 3,
    blend_type := .COMBINE, select := true, mute := false, action := some actLoc }

/-- Host state of the REPLACE scenario: selected strips on tracks 2 and 3
(so `track_min_idx = 2`), competing unselected tracks at 0, 1 and 4. -/
def stReplace : HostState :=
  { frame_current := 0
    tracks :=
      [ { name := "T0", mute := false, strips := [] },
        { name := "T1", mute := false, strips := [stripC] },
        { name := "T2", mute := false, strips := [stripR] },
        { name := "T3", mute := false, strips := [stripR2] },
        { name := "T4", mute := false, strips := [] } ] }

/-- Catalog used by the synthesizer witness. -/
def affW : List (String × Nat) := [("location", 0), ("location", 1)]

/-- Environment of the synthesizer witness: the read of `("location", 1)`
at frame 1 fails, everything else succeeds. -/
def envPartial : Env :=
  { envTotal with
    eval := fun f _ i =>
      if f = 1 ∧ i = 1 then none else some ((f + (i : Int) : Int) : ℚ) }

/-- Sample rows of the synthesizer witness, as the sampler produces them
for `affW` over frames 0-2 under `envPartial`. -/
def rowsW : List (Int × List (Option ℚ)) :=
  [ (0, affW.map fun pi => envPartial.eval 0 pi.1 pi.2),
    (1, affW.map fun pi => envPartial.eval 1 pi.1 pi.2),
    (2, affW.map fun pi => envPartial.eval 2 pi.1 pi.2) ]

/-! Basic lemmas. -/

/-- Agreement of `mfloor` with the mathematical floor. -/
theorem mfloor_eq_floor (q : ℚ) : mfloor q = ⌊q⌋ := by
  rw [Rat.floor_def, mfloor]
  exact Int.fdiv_eq_ediv q.num (by positivity)

/-- Agreement of `mceil` with the mathematical ceiling. -/
theorem mceil_eq_ceil (q : ℚ) : mceil q = ⌈q⌉ := by
  rw [mceil, mfloor_eq_floor, Int.floor_neg, neg_neg]

/-! Properties of the catalog sort order. -/

theorem charLt_irrefl (a : Char) : charLt a a = false := by
  simp [charLt]

theorem charLt_trans (a b c : Char) (h1 : charLt a b = true)
    (h2 : charLt b c = true) : charLt a c = true := by
  simp only [charLt, decide_eq_true_eq] at h1 h2 ⊢
  omega

theorem charLt_total (a b : Char) (h : a ≠ b) :
    charLt a b = true ∨ charLt b a = true := by
  rcases Nat.lt_trichotomy a.toNat b.toNat with hlt | heq | hlt
  · exact Or.inl (by simpa [charLt] using hlt)
  · exact absurd (Char.ext (UInt32.ext heq)) h
  · exact Or.inr (by simpa [charLt] using hlt)

theorem charListLt_cons (a b : Char) (as bs : List Char) :
    charListLt (a :: as) (b :: bs) =
      if a = b then charListLt as bs else charLt a b := rfl

theorem charListLt_total (xs ys : List Char) :
    xs = ys ∨ charListLt xs ys = true ∨ charListLt ys xs = true := by
  induction xs generalizing ys with
  | nil =>
    cases ys with
    | nil => exact Or.inl rfl
    | cons b bs => exact Or.inr (Or.inl rfl)
  | cons a as ih =>
    cases ys with
    | nil => exact Or.inr (Or.inr rfl)
    | cons b bs =>
      by_cases hab : a = b
      · rcases ih bs with h | h | h
        · exact Or.inl (by rw [hab, h])
        · exact Or.inr (Or.inl (by rw [charListLt_cons, if_pos hab]; exact h))
        · exact Or.inr (Or.inr (by rw [charListLt_cons, if_pos hab.symm]; exact h))
      · have hba : b ≠ a := fun he => hab he.symm
        rcases charLt_total a b hab with h | h
        · exact Or.inr (Or.inl (by rw [charListLt_cons, if_neg hab]; exact h))
        · exact Or.inr (Or.inr (by rw [charListLt_cons, if_neg hba]; exact h))

theorem charListLt_trans (xs ys zs : List Char)
    (h1 : charListLt xs ys = true) (h2 : charListLt ys zs = true) :
    charListLt xs zs = true := by
  induction xs generalizing ys zs with
  | nil =>
    cases zs with
    | nil =>
      cases ys with
      | nil => exact h2
      | cons b bs => cases h2
    | cons c cs => rfl
  | cons a as ih =>
    cases ys with
    | nil => cases h1
    | cons b bs =>
      cases zs with
      | nil => cases h2
      | cons c cs =>
        rw [charListLt_cons] at h1 h2 ⊢
        by_cases hab : a = b <;> by_cases hbc : b = c
        · rw [if_pos hab] at h1
          rw [if_pos hbc] at h2
          rw [if_pos (hab.trans hbc)]
          exact ih bs cs h1 h2
        · rw [if_pos hab] at h1
          rw [if_neg hbc] at h2
          have hac : a ≠ c := fun he => hbc (hab.symm.trans he)
          rw [if_neg hac, hab]
          exact h2
        · rw [if_neg hab] at h1
          rw [if_pos hbc] at h2
          have hac : a ≠ c := fun he => hab (he.trans hbc.symm)
          rw [if_neg hac, ← hbc]
          exact h1
        · rw [if_neg hab] at h1
          rw [if_neg hbc] at h2
          have hac : charLt a c = true := charLt_trans a b c h1 h2
          have hne : a ≠ c := by
            intro he
            rw [he, charLt_irrefl] at hac
            cases hac
          rw [if_neg hne]
          exact hac

theorem strLt_total (a b : String) (h : a ≠ b) :
    strLt a b = true ∨ strLt b a = true := by
  rcases charListLt_total a.data b.data with he | hlt | hlt
  · exact absurd (String.ext he) h
  · exact Or.inl hlt
  · exact Or.inr hlt

theorem strLt_trans (a b c : String) (h1 : strLt a b = true)
    (h2 : strLt b c = true) : strLt a c = true :=
  charListLt_trans a.data b.data c.data h1 h2

instance : IsTotal (String × Nat) pairLe :=
  ⟨fun a b => by
    by_cases h : a.1 = b.1
    · rcases le_total a.2 b.2 with h2 | h2
      · exact Or.inl (Or.inr ⟨h, h2⟩)
      · exact Or.inr (Or.inr ⟨h.symm, h2⟩)
    · rcases strLt_total a.1 b.1 h with hlt | hlt
      · exact Or.inl (Or.inl hlt)
      · exact Or.inr (Or.inl hlt)⟩

instance : IsTrans (String × Nat) pairLe :=
  ⟨fun a b c hab hbc => by
    rcases hab with h1 | ⟨h1, h1i⟩
    · rcases hbc with h2 | ⟨h2, _⟩
      · exact Or.inl (strLt_trans a.1 b.1 c.1 h1 h2)
      · exact Or.inl (h2 ▸ h1)
    · rcases hbc with h2 | ⟨h2, h2i⟩
      · exact Or.inl (h1 ▸ h2)
      · exact Or.inr ⟨h1.trans h2, h1i.trans h2i⟩⟩

theorem length_mapWithIdx (f : Nat → α → β) (s : Nat) (l : List α) :
    (mapWithIdx f s l).length = l.length := by
  induction l generalizing s with
  | nil => rfl
  | cons a as ih => simp [mapWithIdx, ih]

theorem getElem?_mapWithIdx (f : Nat → α → β) (s i : Nat) (l : List α) :
    (mapWithIdx f s l)[i]? = (l[i]?).map (f (s + i)) := by
  induction l generalizing s i with
  | nil => simp [mapWithIdx]
  | cons a as ih =>
    cases i with
    | zero => simp [mapWithIdx]
    | succ j =>
      simp only [mapWithIdx, List.getElem?_cons_succ, ih (s + 1) j]
      have : s + 1 + j = s + (j + 1) := by omega
      rw [this]

/-! Lemmas identifying the id-based selection test with the
selected-and-eligible filter, under distinctness of strip ids. -/

theorem mem_selectedStrips (tracks : List Track) (s : Strip) :
    s ∈ selectedStrips tracks ↔
      s ∈ stripsOf tracks ∧ s.select = true ∧ eligible s = true := by
  simp only [selectedStrips, selStripsAll, List.mem_filter]
  tauto

theorem isSel_eq_on_strips (tracks : List Track)
    (hN : ((stripsOf tracks).map Strip.id).Nodup)
    (s : Strip) (hs : s ∈ stripsOf tracks) :
    isSel ((selectedStrips tracks).map Strip.id) s = (s.select && eligible s) := by
  by_cases hsel : s.select = true ∧ eligible s = true
  · have hmem : s ∈ selectedStrips tracks :=
      (mem_selectedStrips tracks s).mpr ⟨hs, hsel.1, hsel.2⟩
    simp [isSel, hsel.1, hsel.2, List.mem_map]
    exact ⟨s, hmem, rfl⟩
  · have hnot : s ∉ selectedStrips tracks := by
      intro hmem
      rcases (mem_selectedStrips tracks s).mp hmem with ⟨_, h1, h2⟩
      exact hsel ⟨h1, h2⟩
    have : s.id ∉ ((selectedStrips tracks).map Strip.id) := by
      intro hid
      rcases List.mem_map.mp hid with ⟨u, hu, huid⟩
      have hu2 : u ∈ stripsOf tracks := ((mem_selectedStrips tracks u).mp hu).1
      have : u = s := List.inj_on_of_nodup_map hN hu2 hs huid
      exact hnot (this ▸ hu)
    rcases not_and_or.mp hsel with h | h
    · simp [isSel, this, Bool.eq_false_iff.mpr h]
    · simp [isSel, this, Bool.eq_false_iff.mpr h]

/-- Under distinct strip ids, filtering the scan order by the captured id
list yields exactly the `selected_strips` list. -/
theorem filter_isSel_eq_selectedStrips (tracks : List Track)
    (hN : ((stripsOf tracks).map Strip.id).Nodup) :
    (stripsOf tracks).filter (isSel ((selectedStrips tracks).map Strip.id)) =
      selectedStrips tracks := by
  have h1 : (stripsOf tracks).filter (isSel ((selectedStrips tracks).map Strip.id)) =
      (stripsOf tracks).filter (fun s => s.select && eligible s) :=
    List.filter_congr (fun s hs => isSel_eq_on_strips tracks hN s hs)
  rw [h1, selectedStrips, selStripsAll, List.filter_filter]
  exact List.filter_congr fun s _ => Bool.and_comm s.select (eligible s)

/-! Component lemmas for the resolver fold. -/

theorem stepTrack_start (sel : List Nat) (i : Nat) (r : RState) (t : Track) :
    (stepTrack sel i r t).start = (t.strips.foldl (stepStrip sel) r).start := by
  unfold stepTrack
  split <;> rfl

theorem stepTrack_stop (sel : List Nat) (i : Nat) (r : RState) (t : Track) :
    (stepTrack sel i r t).stop = (t.strips.foldl (stepStrip sel) r).stop := by
  unfold stepTrack
  split <;> rfl

theorem stepTrack_mode (sel : List Nat) (i : Nat) (r : RState) (t : Track) :
    (stepTrack sel i r t).mode = (t.strips.foldl (stepStrip sel) r).mode := by
  unfold stepTrack
  split <;> rfl

theorem foldl_stepStrip_start (sel : List Nat) (l : List Strip) (r : RState) :
    (l.foldl (stepStrip sel) r).start = minAcc r.start (floorsOf sel l) := by
  induction l generalizing r with
  | nil => rfl
  | cons s l ih =>
    by_cases hs : isSel sel s = true
    · simp only [List.foldl_cons, ih, floorsOf, List.filter_cons, hs, if_pos,
        List.map_cons, minAcc, List.foldl_cons, stepStrip, if_pos hs]
    · simp only [List.foldl_cons, ih, floorsOf, List.filter_cons,
        Bool.eq_false_iff.mpr hs, List.map_cons, minAcc, stepStrip, if_neg hs]
      simp [floorsOf, minAcc]

theorem foldl_stepStrip_stop (sel : List Nat) (l : List Strip) (r : RState) :
    (l.foldl (stepStrip sel) r).stop = maxAcc r.stop (ceilsOf sel l) := by
  induction l generalizing r with
  | nil => rfl
  | cons s l ih =>
    by_cases hs : isSel sel s = true
    · simp only [List.foldl_cons, ih, ceilsOf, List.filter_cons, hs, if_pos,
        List.map_cons, maxAcc, List.foldl_cons, stepStrip, if_pos hs]
    · simp only [List.foldl_cons, ih, stepStrip, if_neg hs]
      simp [ceilsOf, maxAcc, List.filter_cons, Bool.eq_false_iff.mpr hs]

theorem foldl_stepStrip_mode (sel : List Nat) (l : List Strip) (r : RState) :
    (l.foldl (stepStrip sel) r).mode = modeFold r.mode (l.filter (isSel sel)) := by
  induction l generalizing r with
  | nil => rfl
  | cons s l ih =>
    by_cases hs : isSel sel s = true
    · simp only [List.foldl_cons, ih, List.filter_cons, hs, if_pos, modeFold,
        List.foldl_cons, stepStrip, if_pos hs, modeStep]
    · simp only [List.foldl_cons, ih, stepStrip, if_neg hs, List.filter_cons,
        Bool.eq_false_iff.mpr hs]
      simp [modeFold]

theorem resolveGo_start (sel : List Nat) (ts : List Track) (i : Nat) (r : RState) :
    (resolveGo sel i r ts).start = minAcc r.start (floorsOf sel (stripsOf ts)) := by
  induction ts generalizing i r with
  | nil => simp [resolveGo, stripsOf, floorsOf, minAcc]
  | cons t ts ih =>
    rw [resolveGo, ih]
    have h1 : (stepTrack sel i r t).start = minAcc r.start (floorsOf sel t.strips) := by
      rw [stepTrack_start, foldl_stepStrip_start]
    rw [h1]
    show minAcc (minAcc r.start (floorsOf sel t.strips)) (floorsOf sel (stripsOf ts)) = _
    have h2 : stripsOf (t :: ts) = t.strips ++ stripsOf ts := by
      simp [stripsOf]
    rw [h2]
    unfold floorsOf minAcc
    rw [List.filter_append, List.map_append, List.foldl_append]

theorem resolveGo_stop (sel : List Nat) (ts : List Track) (i : Nat) (r : RState) :
    (resolveGo sel i r ts).stop = maxAcc r.stop (ceilsOf sel (stripsOf ts)) := by
  induction ts generalizing i r with
  | nil => simp [resolveGo, stripsOf, ceilsOf, maxAcc]
  | cons t ts ih =>
    rw [resolveGo, ih]
    have h1 : (stepTrack sel i r t).stop = maxAcc r.stop (ceilsOf sel t.strips) := by
      rw [stepTrack_stop, foldl_stepStrip_stop]
    rw [h1]
    have h2 : stripsOf (t :: ts) = t.strips ++ stripsOf ts := by
      simp [stripsOf]
    rw [h2]
    unfold ceilsOf maxAcc
    rw [List.filter_append, List.map_append, List.foldl_append]

theorem resolveGo_mode (sel : List Nat) (ts : List Track) (i : Nat) (r : RState) :
    (resolveGo sel i r ts).mode = modeFold r.mode ((stripsOf ts).filter (isSel sel)) := by
  induction ts generalizing i r with
  | nil => simp [resolveGo, stripsOf, modeFold]
  | cons t ts ih =>
    rw [resolveGo, ih]
    have h1 : (stepTrack sel i r t).mode = modeFold r.mode (t.strips.filter (isSel sel)) := by
      rw [stepTrack_mode, foldl_stepStrip_mode]
    rw [h1]
    have h2 : stripsOf (t :: ts) = t.strips ++ stripsOf ts := by
      simp [stripsOf]
    rw [h2, List.filter_append]
    unfold modeFold
    rw [List.foldl_append]

/-! Characterizations of the sentinel min/max folds. -/

theorem minAcc_some (xs : List Int) (a : Int) :
    minAcc (some a) xs = some (xs.foldl min a) := by
  induction xs generalizing a with
  | nil => rfl
  | cons x xs ih => simp [minAcc, optMinI, List.foldl_cons] at ih ⊢; exact ih (min a x)

theorem maxAcc_some (xs : List Int) (a : Int) :
    maxAcc (some a) xs = some (xs.foldl max a) := by
  induction xs generalizing a with
  | nil => rfl
  | cons x xs ih => simp [maxAcc, optMaxI, List.foldl_cons] at ih ⊢; exact ih (max a x)

theorem minAcc_none_cons (x : Int) (xs : List Int) :
    minAcc none (x :: xs) = some (xs.foldl min x) := by
  show minAcc (some (optMinI none x)) xs = _
  rw [minAcc_some]
  rfl

theorem maxAcc_none_cons (x : Int) (xs : List Int) :
    maxAcc none (x :: xs) = some (xs.foldl max x) := by
  show maxAcc (some (optMaxI none x)) xs = _
  rw [maxAcc_some]
  rfl

theorem foldl_min_le (xs : List Int) (a : Int) : xs.foldl min a ≤ a := by
  induction xs generalizing a with
  | nil => exact le_refl a
  | cons x xs ih => exact le_trans (ih (min a x)) (min_le_left a x)

theorem foldl_min_le_of_mem (xs : List Int) (a b : Int) (hb : b ∈ xs) :
    xs.foldl min a ≤ b := by
  induction xs generalizing a with
  | nil => cases hb
  | cons x xs ih =>
    rw [List.foldl_cons]
    rcases List.mem_cons.mp hb with h | h
    · exact le_trans (le_trans (foldl_min_le xs (min a x)) (min_le_right a x))
        (le_of_eq h.symm)
    · exact ih (min a x) h

theorem foldl_min_eq_or_mem (xs : List Int) (a : Int) :
    xs.foldl min a = a ∨ xs.foldl min a ∈ xs := by
  induction xs generalizing a with
  | nil => exact Or.inl rfl
  | cons x xs ih =>
    rcases ih (min a x) with h | h
    · rcases min_cases a x with ⟨he, _⟩ | ⟨he, _⟩
      · exact Or.inl (by rw [List.foldl_cons, h, he])
      · exact Or.inr (by rw [List.foldl_cons, h, he]; exact List.mem_cons_self x xs)
    · exact Or.inr (List.mem_cons_of_mem x h)

theorem le_foldl_max (xs : List Int) (a : Int) : a ≤ xs.foldl max a := by
  induction xs generalizing a with
  | nil => exact le_refl a
  | cons x xs ih => exact le_trans (le_max_left a x) (ih (max a x))

theorem le_foldl_max_of_mem (xs : List Int) (a b : Int) (hb : b ∈ xs) :
    b ≤ xs.foldl max a := by
  induction xs generalizing a with
  | nil => cases hb
  | cons x xs ih =>
    rw [List.foldl_cons]
    rcases List.mem_cons.mp hb with h | h
    · exact le_trans (le_of_eq h)
        (le_trans (le_max_right a x) (le_foldl_max xs (max a x)))
    · exact ih (max a x) h

theorem foldl_max_eq_or_mem (xs : List Int) (a : Int) :
    xs.foldl max a = a ∨ xs.foldl max a ∈ xs := by
  induction xs generalizing a with
  | nil => exact Or.inl rfl
  | cons x xs ih =>
    rcases ih (max a x) with h | h
    · rcases max_cases a x with ⟨he, _⟩ | ⟨he, _⟩
      · exact Or.inl (by rw [List.foldl_cons, h, he])
      · exact Or.inr (by rw [List.foldl_cons, h, he]; exact List.mem_cons_self x xs)
    · exact Or.inr (List.mem_cons_of_mem x h)

/-! Characterization of the mode fold. -/

theorem getLast?_getD_cons (xs : List α) (a m : α) :
    (a :: xs).getLast?.getD m = xs.getLast?.getD a := by
  induction xs generalizing a m with
  | nil => rfl
  | cons b xs ih => rw [List.getLast?_cons_cons, ih b m, ih b a]

theorem modeFold_replace (l : List Strip) : modeFold .REPLACE l = .REPLACE := by
  induction l with
  | nil => rfl
  | cons s l ih =>
    have h : modeStep .REPLACE s = .REPLACE := by
      unfold modeStep
      by_cases hs : s.blend_type = BlendType.REPLACE
      · rw [if_pos (Or.inl hs)]; exact hs
      · rw [if_neg]; simp [hs]
    simp only [modeFold, List.foldl_cons, h]
    exact ih

theorem modeFold_spec (l : List Strip) (m : BlendType) (hm : m ≠ .REPLACE) :
    (modeFold m l = .REPLACE ↔ ∃ s ∈ l, s.blend_type = .REPLACE) ∧
      ((∀ s ∈ l, s.blend_type ≠ .REPLACE) →
        modeFold m l = (l.map Strip.blend_type).getLast?.getD m) := by
  induction l generalizing m with
  | nil =>
    constructor
    · constructor
      · intro h; exact absurd h hm
      · rintro ⟨s, hs, _⟩; cases hs
    · intro _; rfl
  | cons s l ih =>
    have hstep : modeStep m s = s.blend_type := by
      unfold modeStep
      rw [if_pos (Or.inr hm)]
    by_cases hs : s.blend_type = BlendType.REPLACE
    · constructor
      · constructor
        · intro _; exact ⟨s, List.mem_cons_self s l, hs⟩
        · intro _
          show modeFold (modeStep m s) l = _
          rw [hstep, hs, modeFold_replace]
      · intro hall
        exact absurd hs (hall s (List.mem_cons_self s l))
    · rcases ih s.blend_type hs with ⟨ih1, ih2⟩
      constructor
      · show modeFold (modeStep m s) l = _ ↔ _
        rw [hstep, ih1]
        constructor
        · rintro ⟨u, hu, hub⟩; exact ⟨u, List.mem_cons_of_mem s hu, hub⟩
        · rintro ⟨u, hu, hub⟩
          rcases List.mem_cons.mp hu with h | h
          · exact absurd (h ▸ hub) hs
          · exact ⟨u, h, hub⟩
      · intro hall
        show modeFold (modeStep m s) l = _
        rw [hstep, ih2 (fun u hu => hall u (List.mem_cons_of_mem s hu))]
        rw [List.map_cons, getLast?_getD_cons]

theorem minAcc_char (xs : List Int) (hne : xs ≠ []) :
    ∃ m, minAcc none xs = some m ∧ (∀ b ∈ xs, m ≤ b) ∧ m ∈ xs := by
  obtain ⟨x, xs2, rfl⟩ := List.exists_cons_of_ne_nil hne
  refine ⟨xs2.foldl min x, minAcc_none_cons x xs2, ?_, ?_⟩
  · intro b hb
    rcases List.mem_cons.mp hb with h | h
    · rw [h]; exact foldl_min_le xs2 x
    · exact foldl_min_le_of_mem xs2 x b h
  · rcases foldl_min_eq_or_mem xs2 x with h | h
    · rw [h]; exact List.mem_cons_self x xs2
    · exact List.mem_cons_of_mem x h

theorem maxAcc_char (xs : List Int) (hne : xs ≠ []) :
    ∃ M, maxAcc none xs = some M ∧ (∀ b ∈ xs, b ≤ M) ∧ M ∈ xs := by
  obtain ⟨x, xs2, rfl⟩ := List.exists_cons_of_ne_nil hne
  refine ⟨xs2.foldl max x, maxAcc_none_cons x xs2, ?_, ?_⟩
  · intro b hb
    rcases List.mem_cons.mp hb with h | h
    · rw [h]; exact le_foldl_max xs2 x
    · exact le_foldl_max_of_mem xs2 x b h
  · rcases foldl_max_eq_or_mem xs2 x with h | h
    · rw [h]; exact List.mem_cons_self x xs2
    · exact List.mem_cons_of_mem x h

/-- Floors scanned by the resolver are the floors of `selected_strips`,
under distinct strip ids. -/
theorem floorsOf_eq (st : HostState)
    (hN : ((stripsOf st.tracks).map Strip.id).Nodup) :
    floorsOf ((selectedStrips st.tracks).map Strip.id) (stripsOf st.tracks) =
      (selectedStrips st.tracks).map fun s => mfloor s.frame_start := by
  unfold floorsOf
  rw [filter_isSel_eq_selectedStrips st.tracks hN]

/-- Ceilings scanned by the resolver are the ceilings of `selected_strips`,
under distinct strip ids. -/
theorem ceilsOf_eq (st : HostState)
    (hN : ((stripsOf st.tracks).map Strip.id).Nodup) :
    ceilsOf ((selectedStrips st.tracks).map Strip.id) (stripsOf st.tracks) =
      (selectedStrips st.tracks).map fun s => mceil s.frame_end := by
  unfold ceilsOf
  rw [filter_isSel_eq_selectedStrips st.tracks hN]

/-- C3: for every selection of at least two eligible clips (with distinct
strip identities), the resolved range satisfies `start = min over selected
clips of floor(clip.frame_start)` and `end = max over selected clips of
ceil(clip.frame_end)`. -/
theorem merge_resolved_range_min_max (st : HostState)
    (hN : ((stripsOf st.tracks).map Strip.id).Nodup)
    (h2 : 2 ≤ (selectedStrips st.tracks).length) :
    ∃ m M,
      (resolve ((selectedStrips st.tracks).map Strip.id) st.tracks).start = some m ∧
      (resolve ((selectedStrips st.tracks).map Strip.id) st.tracks).stop = some M ∧
      (∀ s ∈ selectedStrips st.tracks, m ≤ mfloor s.frame_start ∧ mceil s.frame_end ≤ M) ∧
      (∃ s ∈ selectedStrips st.tracks, mfloor s.frame_start = m) ∧
      (∃ s ∈ selectedStrips st.tracks, mceil s.frame_end = M) := by
  have hne : selectedStrips st.tracks ≠ [] := by
    intro h
    rw [h] at h2
    exact absurd h2 (by decide)
  have hstart : (resolve ((selectedStrips st.tracks).map Strip.id) st.tracks).start =
      minAcc none ((selectedStrips st.tracks).map fun s => mfloor s.frame_start) := by
    rw [resolve, resolveGo_start, ← floorsOf_eq st hN]; rfl
  have hstop : (resolve ((selectedStrips st.tracks).map Strip.id) st.tracks).stop =
      maxAcc none ((selectedStrips st.tracks).map fun s => mceil s.frame_end) := by
    rw [resolve, resolveGo_stop, ← ceilsOf_eq st hN]; rfl
  have hfne : ((selectedStrips st.tracks).map fun s => mfloor s.frame_start) ≠ [] := by
    simpa using hne
  have hcne : ((selectedStrips st.tracks).map fun s => mceil s.frame_end) ≠ [] := by
    simpa using hne
  obtain ⟨m, hm, hmle, hmmem⟩ := minAcc_char _ hfne
  obtain ⟨M, hM, hMle, hMmem⟩ := maxAcc_char _ hcne
  refine ⟨m, M, hstart.trans hm, hstop.trans hM, ?_, ?_, ?_⟩
  · intro s hs
    exact ⟨hmle _ (List.mem_map_of_mem _ hs), hMle _ (List.mem_map_of_mem _ hs)⟩
  · rcases List.mem_map.mp hmmem with ⟨s, hs, hsm⟩
    exact ⟨s, hs, hsm⟩
  · rcases List.mem_map.mp hMmem with ⟨s, hs, hsM⟩
    exact ⟨s, hs, hsM⟩

/-- Witness for C3 on the concrete two-strip state: hypotheses hold and the
resolved range is characterized. -/
theorem merge_resolved_range_min_max_witness :
    ((stripsOf stOK.tracks).map Strip.id).Nodup ∧
    2 ≤ (selectedStrips stOK.tracks).length ∧
    ∃ m M,
      (resolve ((selectedStrips stOK.tracks).map Strip.id) stOK.tracks).start = some m ∧
      (resolve ((selectedStrips stOK.tracks).map Strip.id) stOK.tracks).stop = some M ∧
      (∀ s ∈ selectedStrips stOK.tracks,
        m ≤ mfloor s.frame_start ∧ mceil s.frame_end ≤ M) ∧
      (∃ s ∈ selectedStrips stOK.tracks, mfloor s.frame_start = m) ∧
      (∃ s ∈ selectedStrips stOK.tracks, mceil s.frame_end = M) :=
  ⟨by decide, by decide, merge_resolved_range_min_max stOK (by decide) (by decide)⟩

/-- C4: the resolved blend mode is REPLACE iff some selected clip has mode
REPLACE; when none does, the resolved mode is the mode of the last selected
clip in track/strip scan order. -/
theorem merge_resolved_mode_replace_precedence (st : HostState)
    (hN : ((stripsOf st.tracks).map Strip.id).Nodup)
    (h2 : 2 ≤ (selectedStrips st.tracks).length) :
    ((resolve ((selectedStrips st.tracks).map Strip.id) st.tracks).mode = .REPLACE ↔
      ∃ s ∈ selectedStrips st.tracks, s.blend_type = .REPLACE) ∧
    ((∀ s ∈ selectedStrips st.tracks, s.blend_type ≠ .REPLACE) →
      some (resolve ((selectedStrips st.tracks).map Strip.id) st.tracks).mode =
        ((selectedStrips st.tracks).map Strip.blend_type).getLast?) := by
  have hne : selectedStrips st.tracks ≠ [] := by
    intro h
    rw [h] at h2
    exact absurd h2 (by decide)
  have hmode : (resolve ((selectedStrips st.tracks).map Strip.id) st.tracks).mode =
      modeFold .COMBINE (selectedStrips st.tracks) := by
    rw [resolve, resolveGo_mode, filter_isSel_eq_selectedStrips st.tracks hN]; rfl
  have hCom : (BlendType.COMBINE : BlendType) ≠ .REPLACE := by decide
  rcases modeFold_spec (selectedStrips st.tracks) .COMBINE hCom with ⟨h1, hlast⟩
  constructor
  · rw [hmode]; exact h1
  · intro hall
    rw [hmode, hlast hall]
    have hmapne : (selectedStrips st.tracks).map Strip.blend_type ≠ [] := by
      simpa using hne
    obtain ⟨g, hg⟩ :=
      Option.isSome_iff_exists.mp (List.getLast?_isSome.mpr hmapne)
    rw [hg]
    rfl

/-- Witness for C4 on the concrete REPLACE scenario: some selected clip is
REPLACE and the resolved mode is REPLACE. -/
theorem merge_resolved_mode_replace_precedence_witness :
    ((stripsOf stReplace.tracks).map Strip.id).Nodup ∧
    2 ≤ (selectedStrips stReplace.tracks).length ∧
    ((resolve ((selectedStrips stReplace.tracks).map Strip.id) stReplace.tracks).mode
        = .REPLACE ↔
      ∃ s ∈ selectedStrips stReplace.tracks, s.blend_type = .REPLACE) :=
  ⟨by decide, by decide,
    (merge_resolved_mode_replace_precedence stReplace (by decide) (by decide)).1⟩

/-- C7: the channel catalog is duplicate-free, sorted by path then
component index, and contains exactly the channel keys occurring in the
given strips' actions. -/
theorem catalog_nodup_sorted_complete (l : List Strip) :
    (catalog l).Nodup ∧ List.Sorted pairLe (catalog l) ∧
      ∀ pr : String × Nat, (pr ∈ catalog l ↔ ∃ s ∈ l, pr ∈ stripChannels s) := by
  refine ⟨?_, ?_, ?_⟩
  · exact (List.perm_insertionSort pairLe _).nodup_iff.mpr
      (List.nodup_dedup (l.flatMap stripChannels))
  · exact List.sorted_insertionSort pairLe _
  · intro pr
    rw [catalog, (List.perm_insertionSort pairLe _).mem_iff, List.mem_dedup,
      List.mem_flatMap]

/-- C5: the isolate step mutes exactly the tracks that are unmuted, hold no
selected strip, and are not exempted by the REPLACE-below-minimum rule;
already muted tracks stay muted, the strips of every track are untouched. -/
theorem isolate_mutes_exactly (sel : List Nat) (mode : BlendType) (k : Nat)
    (tracks : List Track) (i : Nat) (t : Track) (ht : tracks[i]? = some t) :
    ∃ u, (isolate sel mode (some k) tracks)[i]? = some u ∧
      u.strips = t.strips ∧ u.name = t.name ∧
      (u.mute = true ↔
        (t.mute = true ∨ (holdsSel sel t = false ∧ ¬(mode = .REPLACE ∧ i < k)))) := by
  refine ⟨isoTrack sel mode (some k) i t, ?_, ?_⟩
  · rw [isolate, getElem?_mapWithIdx, ht, Nat.zero_add]
    rfl
  · unfold isoTrack
    by_cases hc : t.mute = false ∧ holdsSel sel t = false ∧
        ¬(mode = .REPLACE ∧ ltOptN i (some k) = true)
    · rw [if_pos hc]
      refine ⟨rfl, rfl, ?_⟩
      simp only [ltOptN, decide_eq_true_eq] at hc
      constructor
      · intro _; exact Or.inr ⟨hc.2.1, hc.2.2⟩
      · intro _; rfl
    · rw [if_neg hc]
      refine ⟨rfl, rfl, ?_⟩
      simp only [ltOptN, decide_eq_true_eq] at hc
      constructor
      · intro hm; exact Or.inl hm
      · intro h
        rcases h with h | ⟨h1, h2⟩
        · exact h
        · cases hmut : t.mute with
          | true => rfl
          | false => exact absurd ⟨hmut, h1, h2⟩ hc

/-- Witness for C5 on the REPLACE scenario at track index 1: the track is
exempted (index below `track_min_idx = 2`), so it is not muted. -/
theorem isolate_mutes_exactly_witness :
    stReplace.tracks[1]? = some { name := "T1", mute := false, strips := [stripC] } ∧
    ∃ u, (isolate ((selectedStrips stReplace.tracks).map Strip.id) .REPLACE (some 2)
        stReplace.tracks)[1]? = some u ∧
      u.strips = [stripC] ∧ u.name = "T1" ∧
      (u.mute = true ↔
        (false = true ∨
          (holdsSel ((selectedStrips stReplace.tracks).map Strip.id)
              { name := "T1", mute := false, strips := [stripC] } = false ∧
            ¬(BlendType.REPLACE = .REPLACE ∧ 1 < 2)))) :=
  ⟨by decide,
    isolate_mutes_exactly ((selectedStrips stReplace.tracks).map Strip.id)
      .REPLACE 2 stReplace.tracks 1
      { name := "T1", mute := false, strips := [stripC] } (by decide)⟩

/-! Lemmas about execute on the validation-failure paths. -/

/-- Whenever validation fails (fewer than two eligible strips after
filtering, or an unresolvable range), `execute` cancels with the host state
untouched. -/
theorem execute_cancels_of_invalid (env : Env) (st : HostState)
    (h : (selectedStrips st.tracks).length < 2 ∨
      (resolve ((selectedStrips st.tracks).map Strip.id) st.tracks).start = none ∨
      (resolve ((selectedStrips st.tracks).map Strip.id) st.tracks).stop = none) :
    execute env st = (.CANCELLED, st) := by
  simp only [selectedStrips] at h
  unfold execute
  simp only []
  split
  · rfl
  · split
    · rfl
    · rename_i hlen
      split
      · rename_i strip_start strip_stop heq1 heq2
        rcases h with h | h | h
        · exact absurd h hlen
        · rw [heq1] at h; cases h
        · rw [heq2] at h; cases h
      · rfl

/-- C9: a validation failure (fewer than two eligible clips after
filtering, or an unresolvable time range) cancels the operation before any
mutation: the final host state is exactly the initial one. -/
theorem validation_failure_leaves_state_unchanged (env : Env) (st : HostState)
    (h : (selectedStrips st.tracks).length < 2 ∨
      (resolve ((selectedStrips st.tracks).map Strip.id) st.tracks).start = none ∨
      (resolve ((selectedStrips st.tracks).map Strip.id) st.tracks).stop = none) :
    execute env st = (.CANCELLED, st) :=
  execute_cancels_of_invalid env st h

/-- Witness for C9: one eligible strip only; the run cancels with the state
unchanged. -/
theorem validation_failure_leaves_state_unchanged_witness :
    (selectedStrips stOneEligible.tracks).length < 2 ∧
    execute envTotal stOneEligible = (.CANCELLED, stOneEligible) :=
  ⟨by decide,
    validation_failure_leaves_state_unchanged envTotal stOneEligible
      (Or.inl (by decide))⟩

/-- Counterexample to C2 as stated: with two selected clips whose
animation sources are absent (an empty channel catalog), the merge does NOT
succeed with a zero-channel clip; it cancels and creates nothing. -/
theorem merge_empty_catalog_claim_false :
    execute envTotal stNoSources = (.CANCELLED, stNoSources) := by decide

/-- C2 as amended: when every selected clip has an absent or zero-channel
animation source, the strips are all filtered out, and the operation
cancels with the host state unchanged (no clip is produced).  The
post-filter empty-catalog guard of lines 111-118 likewise cancels after
restoring mutes rather than producing a zero-channel clip. -/
theorem merge_all_ineligible_cancels (env : Env) (st : HostState)
    (h : ∀ s ∈ selStripsAll st.tracks, eligible s = false) :
    execute env st = (.CANCELLED, st) := by
  apply execute_cancels_of_invalid
  left
  have hnil : selectedStrips st.tracks = [] := by
    rw [selectedStrips]
    rw [List.filter_eq_nil_iff]
    intro s hs
    rw [h s hs]
    exact Bool.false_ne_true
  rw [hnil]
  decide

/-- Witness for the amended C2 on the concrete no-source state. -/
theorem merge_all_ineligible_cancels_witness :
    (∀ s ∈ selStripsAll stNoSources.tracks, eligible s = false) ∧
    execute envTotal stNoSources = (.CANCELLED, stNoSources) :=
  ⟨by decide, merge_all_ineligible_cancels envTotal stNoSources (by decide)⟩

/-- C1 evidence (code bug): when `scene.frame_set` raises during the
sampling loop, the error propagates with NO restore step: track 2, muted by
the isolator, is still muted in the final state although its pre-isolate
snapshot value was unmuted. -/
theorem merge_sampling_error_skips_restore :
    (execute envNoFrameSet stOK).1 = .RAISED ∧
    (execute envNoFrameSet stOK).2.tracks.map Track.mute = [false, false, true] ∧
    stOK.tracks.map Track.mute = [false, false, false] := by decide

/-- C10: every successful (`FINISHED`) run restores the scene's current
frame to its pre-operation value. -/
theorem merge_finished_restores_frame (env : Env) (st st2 : HostState)
    (h : execute env st = (.FINISHED, st2)) :
    st2.frame_current = st.frame_current := by
  unfold execute at h
  simp only [] at h
  split at h
  · exact absurd (congrArg Prod.fst h) (by simp)
  · split at h
    · exact absurd (congrArg Prod.fst h) (by simp)
    · split at h
      · split at h
        · exact absurd (congrArg Prod.fst h) (by simp)
        · split at h
          · exact absurd (congrArg Prod.fst h) (by simp)
          · split at h
            · injection h with h1 h2
              rw [← h2]
            · exact absurd (congrArg Prod.fst h) (by simp)
      · exact absurd (congrArg Prod.fst h) (by simp)

/-- Witness for C10 on a concrete successful run. -/
theorem merge_finished_restores_frame_witness :
    (execute envTotal stOK).2.frame_current = stOK.frame_current :=
  merge_finished_restores_frame envTotal stOK (execute envTotal stOK).2 (by decide)

/-! Helper lemmas for the visibility round trip. -/

theorem getElem?_zip_some {l : List α} {m : List β} {i : Nat} {a : α} {b : β}
    (ha : l[i]? = some a) (hb : m[i]? = some b) : (l.zip m)[i]? = some (a, b) := by
  induction l generalizing m i with
  | nil => cases ha
  | cons x xs ih =>
    cases m with
    | nil => cases hb
    | cons y ys =>
      cases i with
      | zero =>
        rw [List.getElem?_cons_zero] at ha hb
        rw [List.zip_cons_cons, List.getElem?_cons_zero]
        rw [Option.some_inj] at ha hb
        rw [ha, hb]
      | succ j =>
        rw [List.getElem?_cons_succ] at ha hb
        rw [List.zip_cons_cons, List.getElem?_cons_succ]
        exact ih ha hb

theorem isoTrack_strips (sel : List Nat) (mode : BlendType) (o : Option Nat)
    (i : Nat) (t : Track) : (isoTrack sel mode o i t).strips = t.strips := by
  unfold isoTrack
  split <;> rfl

theorem isoTrack_name (sel : List Nat) (mode : BlendType) (o : Option Nat)
    (i : Nat) (t : Track) : (isoTrack sel mode o i t).name = t.name := by
  unfold isoTrack
  split <;> rfl

theorem isolate_getElem? (sel : List Nat) (mode : BlendType) (o : Option Nat)
    (tracks : List Track) (i : Nat) :
    (isolate sel mode o tracks)[i]? = (tracks[i]?).map (isoTrack sel mode o i) := by
  rw [isolate, getElem?_mapWithIdx, Nat.zero_add]

theorem length_isolate (sel : List Nat) (mode : BlendType) (o : Option Nat)
    (tracks : List Track) : (isolate sel mode o tracks).length = tracks.length :=
  length_mapWithIdx _ 0 tracks

theorem length_restoreAndMuteSel (sel : List Nat) (orig cur : List Track)
    (h : cur.length = orig.length) :
    (restoreAndMuteSel sel orig cur).length = orig.length := by
  rw [restoreAndMuteSel, List.length_map, List.length_zip, h, min_self]

theorem length_restoreOrigMute (orig cur : List Track) :
    (restoreOrigMute orig cur).length = cur.length :=
  length_mapWithIdx _ 0 cur

theorem restoreAndMuteSel_getElem? (sel : List Nat) (orig cur : List Track)
    (i : Nat) (t u : Track) (ha : orig[i]? = some t) (hb : cur[i]? = some u) :
    (restoreAndMuteSel sel orig cur)[i]? =
      some { u with mute := t.mute, strips := u.strips.map (muteSelStrip sel) } := by
  rw [restoreAndMuteSel, List.getElem?_map, getElem?_zip_some ha hb]
  rfl

theorem restoreOrigMute_getElem? (orig cur : List Track) (i : Nat) (t u : Track)
    (ha : orig[i]? = some t) (hb : cur[i]? = some u) :
    (restoreOrigMute orig cur)[i]? = some { u with mute := t.mute } := by
  rw [restoreOrigMute, getElem?_mapWithIdx, Nat.zero_add, hb]
  simp only [Option.map_some']
  rw [ha]

theorem muteSelStrip_idem (sel : List Nat) (s : Strip) :
    muteSelStrip sel (muteSelStrip sel s) = muteSelStrip sel s := by
  unfold muteSelStrip
  by_cases h : isSel sel s = true
  · rw [if_pos h]
    have h2 : isSel sel { s with mute := true } = true := h
    rw [if_pos h2]
  · rw [if_neg h, if_neg h]

/-- Index access through the whole restore pipeline of a finished run:
every pre-existing track comes back with its original mute flag, its strips
with the selected ones muted. -/
theorem finalTracks_getElem? (sel : List Nat) (mode : BlendType) (o : Option Nat)
    (orig extra : List Track) (i : Nat) (t : Track) (ht : orig[i]? = some t) :
    (muteSelAll sel (restoreOrigMute orig
      (restoreAndMuteSel sel orig (isolate sel mode o orig) ++ extra)))[i]? =
      some { t with strips := t.strips.map (muteSelStrip sel) } := by
  have hilt : i < orig.length := by
    by_contra hge
    rw [List.getElem?_eq_none (by omega)] at ht
    cases ht
  have hiso : (isolate sel mode o orig)[i]? = some (isoTrack sel mode o i t) := by
    rw [isolate_getElem?, ht]
    rfl
  have hrms := restoreAndMuteSel_getElem? sel orig _ i t _ ht hiso
  have hlen2 := length_restoreAndMuteSel sel orig _ (length_isolate sel mode o orig)
  have happ : (restoreAndMuteSel sel orig (isolate sel mode o orig) ++ extra)[i]? =
      some { name := (isoTrack sel mode o i t).name, mute := t.mute,
             strips := (isoTrack sel mode o i t).strips.map (muteSelStrip sel) } := by
    rw [List.getElem?_append, if_pos (by rw [hlen2]; exact hilt)]
    exact hrms
  have hrom := restoreOrigMute_getElem? orig _ i t _ ht happ
  rw [muteSelAll, List.getElem?_map, hrom]
  simp only [Option.map_some', Option.some_inj]
  obtain ⟨tn, tm, ts⟩ := t
  simp only [isoTrack_strips, isoTrack_name, List.map_map]
  exact congrArg (Track.mk tn tm) (List.map_congr_left fun s _ => muteSelStrip_idem sel s)

/-- Length through the whole restore pipeline of a finished run: exactly
one new track. -/
theorem finalTracks_length (sel : List Nat) (mode : BlendType) (o : Option Nat)
    (orig : List Track) (u : Track) :
    (muteSelAll sel (restoreOrigMute orig
      (restoreAndMuteSel sel orig (isolate sel mode o orig) ++ [u]))).length =
      orig.length + 1 := by
  rw [muteSelAll, List.length_map, length_restoreOrigMute, List.length_append,
    length_restoreAndMuteSel sel orig _ (length_isolate sel mode o orig)]
  rfl

/-- C6: on every successful run, each pre-existing track keeps its
pre-operation muted flag and its strips, except that originally selected
strips are muted; the single new track is the only addition. -/
theorem merge_finished_restores_visibility (env : Env) (st st2 : HostState)
    (h : execute env st = (.FINISHED, st2)) :
    st2.tracks.length = st.tracks.length + 1 ∧
    ∀ (i : Nat) (t : Track), st.tracks[i]? = some t →
      st2.tracks[i]? = some
        { t with strips :=
            t.strips.map (muteSelStrip ((selectedStrips st.tracks).map Strip.id)) } := by
  unfold execute at h
  simp only [] at h
  split at h
  · exact absurd (congrArg Prod.fst h) (by simp)
  · split at h
    · exact absurd (congrArg Prod.fst h) (by simp)
    · rcases hs1 : (resolve (List.map Strip.id
          (List.filter eligible (selStripsAll st.tracks))) st.tracks).start with _ | strip_start
      · rw [hs1] at h
        simp only [] at h
        exact absurd (congrArg Prod.fst h) (by simp)
      · rcases hs2 : (resolve (List.map Strip.id
            (List.filter eligible (selStripsAll st.tracks))) st.tracks).stop with _ | strip_stop
        · rw [hs1, hs2] at h
          simp only [] at h
          exact absurd (congrArg Prod.fst h) (by simp)
        · rw [hs1, hs2] at h
          simp only [] at h
          split at h
          · exact absurd (congrArg Prod.fst h) (by simp)
          · split at h
            · exact absurd (congrArg Prod.fst h) (by simp)
            · split at h
              · injection h with h1 h2
                subst h2
                refine ⟨finalTracks_length _ _ _ _ _, fun i t ht => ?_⟩
                exact finalTracks_getElem? _ _ _ st.tracks _ i t ht
              · exact absurd (congrArg Prod.fst h) (by simp)

/-- Witness for C6 on a concrete successful run, at the competing track of
index 2 (muted during sampling, restored afterwards). -/
theorem merge_finished_restores_visibility_witness :
    stOK.tracks[2]? = some { name := "T2", mute := false, strips := [stripC] } ∧
    (execute envTotal stOK).2.tracks[2]? = some
      { name := "T2", mute := false,
        strips := [stripC].map
          (muteSelStrip ((selectedStrips stOK.tracks).map Strip.id)) } :=
  ⟨by decide,
    (merge_finished_restores_visibility envTotal stOK (execute envTotal stOK).2
        (by decide)).2 2
      { name := "T2", mute := false, strips := [stripC] } (by decide)⟩

/-! Characterization of the synthesizer. -/

/-- With every host f-curve creation accepted, the creation pass yields one
fresh linear-extrapolation curve per catalog entry, in catalog order. -/
theorem mkFcurves_eq_map (env : Env) (aff : List (String × Nat))
    (hc : ∀ pi ∈ aff, env.fcurve_new_ok pi.1 pi.2 = true) :
    mkFcurves env aff = aff.map fun pi =>
      { data_path := pi.1, array_index := pi.2, extrapolation := Extrap.LINEAR,
        keyframe_points := [] } := by
  induction aff with
  | nil => rfl
  | cons p l ih =>
    have hp := hc p (List.mem_cons_self p l)
    rw [mkFcurves, List.filterMap_cons, if_pos hp, List.map_cons]
    rw [mkFcurves] at ih
    rw [ih fun pi hpi => hc pi (List.mem_cons_of_mem p hpi)]

theorem insertKey_map (env : Env) (fr : Int) (p : String) (i : Nat) (v : ℚ)
    (aff : List (String × Nat)) (G : (String × Nat) → FCurve)
    (hG : ∀ pi, (G pi).data_path = pi.1 ∧ (G pi).array_index = pi.2)
    (hins : env.insert_ok fr p i = true) :
    insertKey env fr p i v (aff.map G) = aff.map fun q =>
      if q = (p, i) then pushKey (G q) fr v else G q := by
  rw [insertKey, List.map_map]
  refine List.map_congr_left fun q _ => ?_
  show (if (G q).data_path = p ∧ (G q).array_index = i ∧ env.insert_ok fr p i = true
      then { G q with keyframe_points := (G q).keyframe_points ++ [⟨fr, v, .LINEAR⟩] }
      else G q) = _
  by_cases h : q = (p, i)
  · rw [if_pos ⟨(hG q).1.trans (congrArg Prod.fst h),
      (hG q).2.trans (congrArg Prod.snd h), hins⟩, if_pos h]
    rfl
  · rw [if_neg, if_neg h]
    rintro ⟨h1, h2, _⟩
    exact h (Prod.ext ((hG q).1.symm.trans h1) ((hG q).2.symm.trans h2))

theorem updRow_congr (e : (String × Nat) → Option ℚ) (fr : Int)
    (G1 G2 : (String × Nat) → FCurve) (q : String × Nat) (h : G1 q = G2 q) :
    updRow e fr G1 q = updRow e fr G2 q := by
  rcases he : e q with _ | v <;> simp [updRow, he, h]

theorem updRow_fields (e : (String × Nat) → Option ℚ) (fr : Int)
    (G : (String × Nat) → FCurve) (q : String × Nat) :
    (updRow e fr G q).data_path = (G q).data_path ∧
      (updRow e fr G q).array_index = (G q).array_index := by
  rcases he : e q with _ | v <;> simp [updRow, pushKey, he]

theorem foldInsert_general (env : Env) (fr : Int) (e : (String × Nat) → Option ℚ)
    (hins : ∀ p i, env.insert_ok fr p i = true) (aff : List (String × Nat)) :
    ∀ (l : List (String × Nat)) (G : (String × Nat) → FCurve), l.Nodup →
      (∀ pi, (G pi).data_path = pi.1 ∧ (G pi).array_index = pi.2) →
      l.foldl
        (fun acc q =>
          match e q with
          | none => acc
          | some v => insertKey env fr q.1 q.2 v acc) (aff.map G) =
      aff.map fun q => if q ∈ l then updRow e fr G q else G q := by
  intro l
  induction l with
  | nil =>
    intro G _ _
    rw [List.foldl_nil]
    refine (List.map_congr_left fun q _ => ?_).symm
    rw [if_neg (List.not_mem_nil q)]
  | cons p l ih =>
    intro G hN hG
    rw [List.foldl_cons]
    have hpl : p ∉ l := (List.nodup_cons.mp hN).1
    have hstep :
        (match e p with
          | none => aff.map G
          | some v => insertKey env fr p.1 p.2 v (aff.map G)) =
        aff.map fun q => if q = p then updRow e fr G q else G q := by
      rcases hep : e p with _ | v
      · show aff.map G = _
        refine (List.map_congr_left fun q _ => ?_).symm
        by_cases hq : q = p
        · rw [if_pos hq]
          simp [updRow, hq, hep]
        · rw [if_neg hq]
      · show insertKey env fr p.1 p.2 v (aff.map G) = _
        rw [insertKey_map env fr p.1 p.2 v aff G hG (hins p.1 p.2)]
        refine List.map_congr_left fun q _ => ?_
        by_cases hq : q = p
        · rw [if_pos (show q = (p.1, p.2) by rw [hq]), if_pos hq]
          simp [updRow, hq, hep]
        · rw [if_neg (fun hqp : q = (p.1, p.2) => hq (by rw [hqp])), if_neg hq]
    rw [hstep]
    have hG1 : ∀ pi,
        ((fun q => if q = p then updRow e fr G q else G q) pi).data_path = pi.1 ∧
        ((fun q => if q = p then updRow e fr G q else G q) pi).array_index = pi.2 := by
      intro pi
      show (if pi = p then updRow e fr G pi else G pi).data_path = pi.1 ∧
        (if pi = p then updRow e fr G pi else G pi).array_index = pi.2
      by_cases hq : pi = p
      · rw [if_pos hq]
        exact ⟨(updRow_fields e fr G pi).1.trans (hG pi).1,
          (updRow_fields e fr G pi).2.trans (hG pi).2⟩
      · rw [if_neg hq]
        exact hG pi
    rw [ih (fun q => if q = p then updRow e fr G q else G q) (List.nodup_cons.mp hN).2 hG1]
    refine List.map_congr_left fun q _ => ?_
    by_cases hql : q ∈ l
    · have hqp : q ≠ p := fun he => hpl (he ▸ hql)
      rw [if_pos hql, if_pos (List.mem_cons_of_mem p hql)]
      exact updRow_congr e fr _ G q (if_neg hqp)
    · by_cases hqp : q = p
      · rw [if_neg hql]
        show (if q = p then updRow e fr G q else G q) = _
        rw [if_pos hqp,
          if_pos (show q ∈ p :: l by rw [hqp]; exact List.mem_cons_self p l)]
      · rw [if_neg hql]
        show (if q = p then updRow e fr G q else G q) = _
        rw [if_neg hqp,
          if_neg (fun hmem => (List.mem_cons.mp hmem).elim hqp hql)]

theorem zipSelfFold_eq (env : Env) (fr : Int) (e : (String × Nat) → Option ℚ) :
    ∀ (l : List (String × Nat)) (fcs : List FCurve),
      (l.zip (l.map e)).foldl
        (fun acc e2 =>
          match e2.2 with
          | none => acc
          | some v => insertKey env fr e2.1.1 e2.1.2 v acc) fcs =
      l.foldl
        (fun acc q =>
          match e q with
          | none => acc
          | some v => insertKey env fr q.1 q.2 v acc) fcs := by
  intro l
  induction l with
  | nil => intro fcs; rfl
  | cons a l ih =>
    intro fcs
    rw [List.map_cons, List.zip_cons_cons, List.foldl_cons, List.foldl_cons]
    exact ih _

/-- Keyframe insertion for one aligned row: the f-curve of each catalog
entry receives exactly one keyframe when the row holds a value for it, none
when the value is absent. -/
theorem processRow_aligned (env : Env) (aff : List (String × Nat))
    (row : Int × List (Option ℚ)) (G : (String × Nat) → FCurve)
    (hrow : row.2 = aff.map fun pi => env.eval row.1 pi.1 pi.2)
    (hN : aff.Nodup)
    (hG : ∀ pi, (G pi).data_path = pi.1 ∧ (G pi).array_index = pi.2)
    (hins : ∀ p i, env.insert_ok row.1 p i = true) :
    processRow env aff row (aff.map G) =
      aff.map (updRow (fun pr => env.eval row.1 pr.1 pr.2) row.1 G) := by
  rw [processRow, hrow,
    zipSelfFold_eq env row.1 (fun pi => env.eval row.1 pi.1 pi.2) aff (aff.map G),
    foldInsert_general env row.1 (fun q => env.eval row.1 q.1 q.2) hins aff aff G hN hG]
  refine List.map_congr_left fun q hq => ?_
  rw [if_pos hq]

/-- Accumulated effect of the row-by-row insertion over the whole sample
table: each catalog entry's keyframes are exactly the present values of the
rows, in order, at their absolute frames. -/
theorem synthesizeRows_general (env : Env) (aff : List (String × Nat))
    (hN : aff.Nodup) (hins : ∀ fr p i, env.insert_ok fr p i = true) :
    ∀ (rows : List (Int × List (Option ℚ))),
      (∀ row ∈ rows, row.2 = aff.map fun pi => env.eval row.1 pi.1 pi.2) →
      ∀ g : (String × Nat) → List Keyframe,
      rows.foldl (fun fcs row => processRow env aff row fcs)
        (aff.map fun pi => { freshFC pi with keyframe_points := g pi }) =
      aff.map fun pi =>
        { freshFC pi with
          keyframe_points := g pi ++ rows.filterMap (rowKey env pi) } := by
  intro rows
  induction rows with
  | nil =>
    intro _ g
    rw [List.foldl_nil]
    refine List.map_congr_left fun q _ => ?_
    rw [List.filterMap_nil, List.append_nil]
  | cons row rest ih =>
    intro hrows g
    rw [List.foldl_cons]
    rw [processRow_aligned env aff row _ (hrows row (List.mem_cons_self row rest)) hN
      (fun pi => ⟨rfl, rfl⟩) (fun p i => hins row.1 p i)]
    have hform : aff.map (updRow (fun pr => env.eval row.1 pr.1 pr.2) row.1
          fun pi => { freshFC pi with keyframe_points := g pi }) =
        aff.map fun pi =>
          { freshFC pi with
            keyframe_points := g pi ++ (rowKey env pi row).toList } := by
      refine List.map_congr_left fun q _ => ?_
      rcases he : env.eval row.1 q.1 q.2 with _ | v
      · simp [updRow, he, rowKey]
      · simp [updRow, he, rowKey, pushKey, freshFC]
    rw [hform]
    rw [ih (fun r hr => hrows r (List.mem_cons_of_mem row hr))
      fun pi => g pi ++ (rowKey env pi row).toList]
    refine List.map_congr_left fun q _ => ?_
    rw [List.filterMap_cons]
    rcases hk : rowKey env q row with _ | k
    · rw [Option.toList_none, List.append_nil]
    · rw [Option.toList_some, List.append_assoc, List.singleton_append]

/-- C8: under an accepting host, the synthesizer creates one f-curve per
catalog entry (linear extrapolation, in catalog order) and inserts, per
curve, exactly one linear keyframe for each sampled row whose value is
present, at the absolute sampled frame; absent values are skipped. -/
theorem synthesize_one_curve_per_entry (env : Env) (aff : List (String × Nat))
    (rows : List (Int × List (Option ℚ))) (hN : aff.Nodup)
    (hrows : ∀ row ∈ rows, row.2 = aff.map fun pi => env.eval row.1 pi.1 pi.2)
    (hc : ∀ pi ∈ aff, env.fcurve_new_ok pi.1 pi.2 = true)
    (hins : ∀ fr p i, env.insert_ok fr p i = true) :
    synthesize env aff rows = aff.map fun pi =>
      { data_path := pi.1, array_index := pi.2, extrapolation := Extrap.LINEAR,
        keyframe_points := rows.filterMap (rowKey env pi) } := by
  rw [synthesize, mkFcurves_eq_map env aff hc]
  have hbase : (aff.map fun pi =>
      ({ data_path := pi.1, array_index := pi.2, extrapolation := Extrap.LINEAR,
         keyframe_points := [] } : FCurve)) =
      aff.map fun pi => { freshFC pi with keyframe_points := ([] : List Keyframe) } := rfl
  rw [hbase, synthesizeRows_general env aff hN hins rows hrows fun _ => []]
  refine List.map_congr_left fun q _ => ?_
  rw [List.nil_append]
  rfl

/-- Witness for C8 on a concrete catalog, environment and sample table (one
read fails at frame 1 for the second entry, hence one skipped keyframe). -/
theorem synthesize_one_curve_per_entry_witness :
    synthesize envPartial affW rowsW = affW.map fun pi =>
      { data_path := pi.1, array_index := pi.2, extrapolation := Extrap.LINEAR,
        keyframe_points := rowsW.filterMap (rowKey envPartial pi) } :=
  synthesize_one_curve_per_entry envPartial affW rowsW (by decide)
    (by decide) (by decide) (fun _ _ _ => rfl)

end NLAMerge
